import Mathlib

/-!
# Verification of the close-brackets subsystem

A shallow embedding of `src/closebrackets.ts` (automatic bracket closing for a
code editor).  Documents are lists of UTF-16 code units (natural numbers below
2^16 in well-formed documents); positions are code-unit offsets, exactly as in
the source.  Host services that the source consumes (position mapping of the
document, the syntax tree, the character categorizer) are modelled explicitly
where their behaviour is specified, and as injected oracles where the spec
treats them as external capabilities.
-/

set_option autoImplicit false

namespace CloseBrackets

/-- A code-unit string: the embedding of a JavaScript string. -/
abbrev UStr := List Nat

/-- JavaScript `charCodeAt`: out-of-range reads yield a default (the source
only ever observes such reads through surrogate tests that then fail, so the
default value is never distinguishable from the real NaN). -/
def charCodeAt (s : UStr) (i : Nat) : Nat := s.getD i 0

/-- High-surrogate test (`cp >= 0xD800 && cp < 0xDC00`). -/
def surrHigh (c : Nat) : Bool := 55296 ≤ c && c < 56320

/-- Low-surrogate test (`cp >= 0xDC00 && cp < 0xE000`). -/
def surrLow (c : Nat) : Bool := 56320 ≤ c && c < 57344

/-- `codePointAt` from the text utility package: combines a surrogate pair. -/
def codePointAt (s : UStr) (pos : Nat) : Nat :=
  let c0 := charCodeAt s pos
  if !surrHigh c0 || pos + 1 == s.length then c0
  else
    let c1 := charCodeAt s (pos + 1)
    if !surrLow c1 then c0
    else (c0 - 55296) * 1024 + (c1 - 56320) + 65536

/-- `codePointSize`: number of UTF-16 units a code point occupies. -/
def codePointSize (c : Nat) : Nat := if c < 65536 then 1 else 2

/-- `fromCodePoint`: encode a code point as UTF-16 units. -/
def fromCodePoint (c : Nat) : UStr :=
  if c ≤ 65535 then [c]
  else [(c - 65536) / 1024 + 55296, (c - 65536) % 1024 + 56320]

/-- Number of code points in a code-unit string (surrogate pairs count once). -/
def cpCount : UStr → Nat
  | [] => 0
  | [_] => 1
  | u :: v :: rest =>
    if surrHigh u && surrLow v then 1 + cpCount rest else 1 + cpCount (v :: rest)

/-- The JavaScript whitespace class used by the `/\s/` test in `handleOpen`. -/
def isSpace (u : Nat) : Bool :=
  u == 9 || u == 10 || u == 11 || u == 12 || u == 13 || u == 32 ||
  u == 160 || u == 5760 || (8192 ≤ u && u ≤ 8202) || u == 8232 ||
  u == 8233 || u == 8239 || u == 8287 || u == 12288 || u == 65279

/-- JavaScript `haystack.indexOf(needle) > -1`: the needle occurs as a
contiguous substring (an empty needle always occurs). -/
def occursIn (pat : UStr) : UStr → Bool
  | [] => pat.isEmpty
  | u :: rest => pat.isPrefixOf (u :: rest) || occursIn pat rest

/-- `doc.sliceString(a, b)` with the source's clamping behaviour (negative
arguments clamp to zero; in this embedding that clamping is Nat subtraction). -/
def sliceDoc (doc : UStr) (a b : Nat) : UStr := (doc.drop a).take (b - a)

/-- `nextChar` (closebrackets.ts lines 151-154): the single code point after
`pos`, empty at the document end. -/
def nextChar (doc : UStr) (pos : Nat) : UStr :=
  let next := sliceDoc doc pos (pos + 2)
  next.take (codePointSize (codePointAt next 0))

/-- `prevChar` (closebrackets.ts lines 156-159): the single code point before
`pos`, empty at the document start. -/
def prevChar (doc : UStr) (pos : Nat) : UStr :=
  let prev := sliceDoc doc (pos - 2) pos
  if codePointSize (codePointAt prev 0) == prev.length then prev else prev.drop 1

/-- The fixed table `"()[]{}<>"` of known pairs (closebrackets.ts line 67). -/
def definedClosing : UStr := [40, 41, 91, 93, 123, 125, 60, 62]

/-- `closing` (closebrackets.ts lines 69-73): look up the table at even
indices; otherwise the code point itself when below 128, else one greater. -/
def closing (ch : Nat) : UStr :=
  if ch == 40 then [41]
  else if ch == 91 then [93]
  else if ch == 123 then [125]
  else if ch == 60 then [62]
  else fromCodePoint (if ch < 128 then ch else ch + 1)

/-- One replacement of the range `[cfrom, cto)` by the units `ins`.  A
transaction's change set is a position-sorted list of these. -/
structure Change where
  cfrom : Nat
  cto : Nat
  ins : UStr
deriving DecidableEq, Repr

/-- The four position-mapping modes of the host document
(`MapMode.Simple/TrackDel/TrackBefore/TrackAfter`). -/
inductive MapMode where
  | Simple
  | TrackDel
  | TrackBefore
  | TrackAfter
deriving DecidableEq, Repr

/-- Whether a mapped position is invalidated by a replaced section
`[posA, endA)`, per mode. -/
def dropCond (mode : MapMode) (posA endA pos : Nat) : Bool :=
  match mode with
  | .Simple => false
  | .TrackDel => posA < pos && pos < endA
  | .TrackBefore => posA < pos
  | .TrackAfter => pos < endA

/-- Modelled from the spec: the host document's position-mapping primitive
(spec section 6, "returns a position-mapping function ... with at least two
modes"), the service `mapping.mapPos(pos, assoc, mode)` that
closebrackets.ts consumes but does not implement.  `posA`/`posB` accumulate
the offsets in the old and new document while walking the sorted sections. -/
def mapPosAux (assoc : Int) (mode : MapMode) : List Change → Nat → Nat → Nat → Option Nat
  | [], pos, posA, posB => some (posB + (pos - posA))
  | c :: rest, pos, posA, posB =>
    if pos < c.cfrom then some (posB + (pos - posA))
    else
      let posB2 := posB + (c.cfrom - posA)
      let len := c.cto - c.cfrom
      let insLen := c.ins.length
      if mode ≠ .Simple && pos ≤ c.cto && dropCond mode c.cfrom c.cto pos then none
      else if pos < c.cto || (pos == c.cto && assoc < 0 && len == 0) then
        some (if pos == c.cfrom || assoc < 0 then posB2 else posB2 + insLen)
      else mapPosAux assoc mode rest pos c.cto (posB2 + insLen)

/-- Modelled from the spec: `changes.mapPos(pos, assoc, mode)` of the host
document (spec section 6). -/
def mapPos (changes : List Change) (pos : Nat) (assoc : Int) (mode : MapMode) : Option Nat :=
  mapPosAux assoc mode changes pos 0 0

/-- Apply a sorted change list to a document (right-to-left so earlier
positions are unaffected by later replacements). -/
def applyChanges (doc : UStr) (cs : List Change) : UStr :=
  cs.foldr (fun c d => d.take c.cfrom ++ c.ins ++ d.drop c.cto) doc

/-- The start of the line around `pos`: the position just after the last
newline before `pos` (the host document's `lineAt(pos).from`). -/
def lineStartAt (doc : UStr) (pos : Nat) : Nat :=
  pos - (((doc.take pos).reverse.takeWhile (fun u => u ≠ 10)).length)

/-- A selection range, by anchor and head (the host's `SelectionRange`). -/
structure SelRange where
  anchor : Nat
  head : Nat
deriving DecidableEq, Repr

/-- `range.from`: the lower bound of a selection range. -/
def SelRange.rfrom (r : SelRange) : Nat := min r.anchor r.head

/-- `range.to`: the upper bound of a selection range. -/
def SelRange.rto (r : SelRange) : Nat := max r.anchor r.head

/-- `range.empty`. -/
def SelRange.isEmpty (r : SelRange) : Bool := r.anchor == r.head

/-- `EditorSelection.cursor(pos)`. -/
def cursor (pos : Nat) : SelRange := ⟨pos, pos⟩

/-- The two state effects the subsystem attaches to its transactions
(closebrackets.ts lines 27-35): record an auto-inserted closer at a
position, or consume (skip) the one at a position. -/
inductive BracketEffect where
  | closeEff (pos : Nat)
  | skipEff (pos : Nat)
deriving DecidableEq, Repr

/-- The editor state as this subsystem observes it: document, selection
ranges with main index, the `bracketState` field (positions of tracked
auto-inserted closers), the read-only flag, and the resolved
`closeBrackets` configuration (`languageDataAt` plumbing is out of scope,
so the configuration is carried directly). -/
structure EditorState where
  doc : UStr
  ranges : List SelRange
  mainIndex : Nat
  marks : List Nat
  readOnly : Bool
  brackets : List UStr
  before : UStr
deriving DecidableEq, Repr

/-- `state.selection.main`. -/
def EditorState.main (st : EditorState) : SelRange :=
  st.ranges.getD st.mainIndex ⟨0, 0⟩

/-- Modelled from the spec: the host syntax tree and character categorizer
(spec sections 6 and 9: "abstract this as an injected capability"; a no-op
oracle degrades gracefully).  `nodeStartAt` stands for `nodeStart`
(closebrackets.ts 231-234), `inString` for `probablyInString` (236-245),
and `wordAt pos s` for `state.charCategorizer(pos)(s) == CharCategory.Word`;
all three only consult the external parser or language data. -/
structure SyntaxOracle where
  nodeStartAt : Nat → Bool
  inString : Nat → UStr → Bool
  wordAt : Nat → UStr → Bool

/-- The three-field null oracle (no parser available). -/
def noOracle : SyntaxOracle := ⟨fun _ => false, fun _ _ => false, fun _ _ => false⟩

/-- The default configuration (closebrackets.ts lines 22-25):
brackets `( [ { ' "` and before-set `)]}'":;>`. -/
def defaultBrackets : List UStr := [[40], [91], [123], [39], [34]]

/-- The default `before` boundary string `)]}'":;>`. -/
def defaultBefore : UStr := [41, 93, 125, 39, 34, 58, 59, 62]

/-- The result the `changeByRange` callback produces for one range:
changes in original-document coordinates, effects and the new range in the
coordinates of the original document plus this range's own changes. -/
structure RangeResult where
  changes : List Change
  effects : List BracketEffect
  range : SelRange
deriving DecidableEq, Repr

/-- A transaction spec: sorted changes in old-document coordinates, the new
selection (if the transaction sets one) and bracket effects, both in
new-document coordinates. -/
structure Tr where
  changes : List Change
  sel : Option (List SelRange × Nat)
  effects : List BracketEffect
deriving DecidableEq, Repr

/-- Shift a position by a (possibly negative) length delta. -/
def shiftPos (d : Int) (p : Nat) : Nat := (Int.ofNat p + d).toNat

/-- Length delta of a change list. -/
def changesDelta (cs : List Change) : Int :=
  cs.foldl (fun a c => a + Int.ofNat c.ins.length - Int.ofNat (c.cto - c.cfrom)) 0

/-- Shift an effect's position. -/
def shiftEffect (d : Int) : BracketEffect → BracketEffect
  | .closeEff p => .closeEff (shiftPos d p)
  | .skipEff p => .skipEff (shiftPos d p)

/-- `state.changeByRange` (host), for the per-range results this subsystem
produces: ranges are position-sorted and each range's changes stay inside
its own neighbourhood, so combining amounts to concatenating the change
lists and shifting each result's effects and new range by the length delta
of the changes of the ranges before it. -/
def combineAux (d : Int) : List RangeResult → List Change × List BracketEffect × List SelRange
  | [] => ([], [], [])
  | r :: rest =>
    let tail := combineAux (d + changesDelta r.changes) rest
    (r.changes ++ tail.1,
     r.effects.map (shiftEffect d) ++ tail.2.1,
     ⟨shiftPos d r.range.anchor, shiftPos d r.range.head⟩ :: tail.2.2)

/-- `state.changeByRange` (host), specialized to this subsystem's per-range
results (see `combineAux`). -/
def combine (results : List RangeResult) : List Change × List BracketEffect × List SelRange :=
  combineAux 0 results

/-- Build the transaction that `state.update(changes, ...)` would dispatch
from per-range results (`none` when any range rejected). -/
def mkTr (st : EditorState) (results : List RangeResult) : Tr :=
  let c := combine results
  ⟨c.1, some (c.2.2, st.mainIndex), c.2.1⟩

/-- `closedBracketAt` (closebrackets.ts lines 143-149): is a tracked mark
recorded at `pos`. -/
def closedBracketAt (st : EditorState) (pos : Nat) : Bool :=
  st.marks.contains pos

/-- Map one tracked mark (the one-character range `[p, p+1)` with start side
1 and end side -1) through a change list, as the host range set's `map`
does: map both ends with their sides, drop the mark when it collapses. -/
def mapMark (cs : List Change) (p : Nat) : Option Nat :=
  match mapPos cs p 1 .Simple, mapPos cs (p + 1) (-1) .Simple with
  | some nf, some nt => if nf < nt then some nf else none
  | _, _ => none

/-- Apply one bracket effect to the mark set (closebrackets.ts lines 50-53):
a close effect records a mark, a skip effect filters out marks starting at
the given position. -/
def applyEffect (marks : List Nat) : BracketEffect → List Nat
  | .closeEff p => marks ++ [p]
  | .skipEff p => marks.filter (fun f => f ≠ p)

/-- The `bracketState` field update (closebrackets.ts lines 40-56): when the
transaction sets a selection, clear all marks if the line start at the new
main head differs from the old main head's line start mapped through the
changes; then map the surviving marks through the changes and apply the
transaction's bracket effects. -/
def bracketStateUpdate (st : EditorState) (tr : Tr) : List Nat :=
  let newDoc := applyChanges st.doc tr.changes
  let v :=
    match tr.sel with
    | some (rs, mi) =>
      let lineStart := lineStartAt newDoc (rs.getD mi ⟨0, 0⟩).head
      let prevLineStart := lineStartAt st.doc st.main.head
      if some lineStart ≠ mapPos tr.changes prevLineStart (-1) .Simple then [] else st.marks
    | none => st.marks
  let v := v.filterMap (mapMark tr.changes)
  tr.effects.foldl applyEffect v

/-- Apply a transaction to the state: new document, new selection (mapped
through the changes when the transaction does not set one), and the
`bracketState` update.  Configuration and the read-only flag are host state
and carry over. -/
def applyTr (st : EditorState) (tr : Tr) : EditorState :=
  let newDoc := applyChanges st.doc tr.changes
  let mapDef := fun p => (mapPos tr.changes p (-1) .Simple).getD p
  let rs :=
    match tr.sel with
    | some (rs, mi) => (rs, mi)
    | none =>
      (st.ranges.map (fun (r : SelRange) => (⟨mapDef r.anchor, mapDef r.head⟩ : SelRange)),
       st.mainIndex)
  { doc := newDoc, ranges := rs.1, mainIndex := rs.2,
    marks := bracketStateUpdate st tr, readOnly := st.readOnly,
    brackets := st.brackets, before := st.before }

/-- The `changeByRange` callback of `handleOpen` (closebrackets.ts lines
162-173): wrap a non-empty range in `open`/`close`; at a caret, auto-close
only when the next character is empty, whitespace, or occurs in the
configured before-string; otherwise reject. -/
def handleOpenRange (doc : UStr) (openT closeT closeBefore : UStr) (range : SelRange) :
    Option RangeResult :=
  if !range.isEmpty then
    some ⟨[⟨range.rfrom, range.rfrom, openT⟩, ⟨range.rto, range.rto, closeT⟩],
          [.closeEff (range.rto + openT.length)],
          ⟨range.anchor + openT.length, range.head + openT.length⟩⟩
  else
    let next := nextChar doc range.head
    if next.isEmpty || next.any isSpace || occursIn next closeBefore then
      some ⟨[⟨range.head, range.head, openT ++ closeT⟩],
            [.closeEff (range.head + openT.length)],
            cursor (range.head + openT.length)⟩
    else none

/-- `handleOpen` (closebrackets.ts lines 161-178): apply the per-range
callback to every selection range; commit only when no range rejected. -/
def handleOpen (st : EditorState) (openT closeT closeBefore : UStr) : Option Tr :=
  (st.ranges.mapM (handleOpenRange st.doc openT closeT closeBefore)).map (mkTr st)

/-- `handleClose` (closebrackets.ts lines 180-190): move every empty caret
that sits directly before the close token past it; reject when any range is
non-empty or not before the close token.  The transaction carries a skip
effect at every range's from-position and no document changes. -/
def handleClose (st : EditorState) (_openT closeT : UStr) : Option Tr :=
  (st.ranges.mapM (fun r =>
      if r.isEmpty && nextChar st.doc r.head == closeT then
        some (cursor (r.head + closeT.length))
      else none)).map
    (fun moved =>
      ⟨[], some (moved, st.mainIndex), st.ranges.map (fun r => .skipEff r.rfrom)⟩)

/-- The `changeByRange` callback of `handleSame` (closebrackets.ts lines
195-224), handling a token that is its own closer: wrap a non-empty range;
at a caret, (a) double the token before an identical next character at a
syntax-node start, (b) skip over a tracked closer (three tokens when a
triple-quote run follows), (c) complete a doubled token at a node start into
a triple-quote pair, (d) double the token between non-word characters when
not probably inside a string, (e) otherwise reject. -/
def handleSameRange (o : SyntaxOracle) (doc : UStr) (marks : List Nat)
    (token : UStr) (allowTriple : Bool) (range : SelRange) : Option RangeResult :=
  if !range.isEmpty then
    some ⟨[⟨range.rfrom, range.rfrom, token⟩, ⟨range.rto, range.rto, token⟩],
          [.closeEff (range.rto + token.length)],
          ⟨range.anchor + token.length, range.head + token.length⟩⟩
  else
    let pos := range.head
    let next := nextChar doc pos
    if next == token then
      if o.nodeStartAt pos then
        some ⟨[⟨pos, pos, token ++ token⟩],
              [.closeEff (pos + token.length)], cursor (pos + token.length)⟩
      else if marks.contains pos then
        let isTriple := allowTriple &&
          sliceDoc doc pos (pos + token.length * 3) == token ++ token ++ token
        some ⟨[], [.skipEff pos],
              cursor (pos + token.length * (if isTriple then 3 else 1))⟩
      else none
    else if allowTriple && sliceDoc doc (pos - 2 * token.length) pos == token ++ token &&
            o.nodeStartAt (pos - 2 * token.length) then
      some ⟨[⟨pos, pos, token ++ token ++ token ++ token⟩],
            [.closeEff (pos + token.length)], cursor (pos + token.length)⟩
    else if !o.wordAt pos next then
      let prev := sliceDoc doc (pos - 1) pos
      if prev != token && !o.wordAt pos prev && !o.inString pos token then
        some ⟨[⟨pos, pos, token ++ token⟩],
              [.closeEff (pos + token.length)], cursor (pos + token.length)⟩
      else none
    else none

/-- `handleSame` (closebrackets.ts lines 194-229). -/
def handleSame (o : SyntaxOracle) (st : EditorState) (token : UStr) (allowTriple : Bool) :
    Option Tr :=
  (st.ranges.mapM (handleSameRange o st.doc st.marks token allowTriple)).map (mkTr st)

/-- The before-string with the empty-string fallback of
`conf.before || defaults.before` (closebrackets.ts line 136). -/
def beforeOf (st : EditorState) : UStr :=
  if st.before.isEmpty then defaultBefore else st.before

/-- The token loop of `insertBracket` (closebrackets.ts lines 132-139):
dispatch the typed string to `handleSame`, `handleOpen`, or `handleClose`;
fall through to the next token only when neither branch fires. -/
def insertBracketLoop (o : SyntaxOracle) (st : EditorState) (allTokens : List UStr)
    (bracket : UStr) : List UStr → Option Tr
  | [] => none
  | tok :: rest =>
    let closed := closing (codePointAt tok 0)
    if bracket == tok then
      if closed == tok then handleSame o st tok (allTokens.contains (tok ++ tok ++ tok))
      else handleOpen st tok closed (beforeOf st)
    else if bracket == closed && closedBracketAt st st.main.rfrom then
      handleClose st tok closed
    else insertBracketLoop o st allTokens bracket rest

/-- `insertBracket` (closebrackets.ts lines 129-141): the programmatic entry
point producing the special-behaviour transaction, or `none`. -/
def insertBracket (o : SyntaxOracle) (st : EditorState) (bracket : UStr) : Option Tr :=
  insertBracketLoop o st st.brackets bracket st.brackets

/-- `inputHandler` (closebrackets.ts lines 81-90): reject during composition
or on read-only documents, reject insertions that are not a single (possibly
astral) character replacing exactly the main selection, then defer to
`insertBracket` (true means the resulting transaction was dispatched). -/
def inputHandler (o : SyntaxOracle) (compositionActive : Bool) (st : EditorState)
    (rfrom rto : Nat) (ins : UStr) : Bool :=
  if compositionActive || st.readOnly then false
  else if ins.length > 2 || (ins.length == 2 && codePointSize (codePointAt ins 0) == 1) ||
          rfrom != st.main.rfrom || rto != st.main.rto then false
  else (insertBracket o st ins).isSome

/-- The token search inside `deleteBracketPair`'s callback (closebrackets.ts
lines 101-106): the first configured token equal to the previous character
and whose computed closer is the next character. -/
def deleteMatch (doc : UStr) (tokens : List UStr) (head : Nat) : Option UStr :=
  tokens.find? (fun token =>
    token == prevChar doc head && nextChar doc head == closing (codePointAt token 0))

/-- The `changeByRange` callback of `deleteBracketPair` (closebrackets.ts
lines 98-109): at an empty caret between a matching pair, delete one token's
length on both sides and put the caret at the deletion start. -/
def deleteBracketPairRange (doc : UStr) (tokens : List UStr) (range : SelRange) :
    Option RangeResult :=
  if range.isEmpty then
    match deleteMatch doc tokens range.head with
    | some token =>
      some ⟨[⟨range.head - token.length, range.head + token.length, []⟩], [],
            cursor (range.head - token.length)⟩
    | none => none
  else none

/-- `deleteBracketPair` (closebrackets.ts lines 94-112): the backspace
command; `none` models returning false without dispatching. -/
def deleteBracketPair (st : EditorState) : Option Tr :=
  if st.readOnly then none
  else (st.ranges.mapM (deleteBracketPairRange st.doc st.brackets)).map (mkTr st)

/-- The map function of `closeBracketEffect` (closebrackets.ts lines 27-32):
track-after mapping with association -1; `none` models the dropped effect. -/
def closeBracketEffectMap (cs : List Change) (v : Nat) : Option Nat :=
  mapPos cs v (-1) .TrackAfter

/-- The map function of `skipBracketEffect` (closebrackets.ts lines 33-35):
plain mapping with the default association. -/
def skipBracketEffectMap (cs : List Change) (v : Nat) : Option Nat :=
  mapPos cs v (-1) .Simple

/-- Well-formedness of a change list: position-sorted, non-overlapping, with
a strict gap between sections (as the host's normalized change sets are). -/
def changesSorted : Nat → List Change → Bool
  | _, [] => true
  | lb, c :: rest =>
    Nat.ble lb c.cfrom && Nat.ble c.cfrom c.cto && changesSorted (c.cto + 1) rest

/-- Total length inserted strictly before position `p` by a change list. -/
def insertedBefore (cs : List Change) (p : Nat) : Nat :=
  ((cs.filter (fun c => decide (c.cfrom < p))).map (fun c => c.ins.length)).sum

/-- One keystroke of `tok` through the engine: the transaction produced by
`insertBracket` applied to the state (`none` when the engine rejects and the
keystroke falls through to plain insertion). -/
def typeTok (o : SyntaxOracle) (tok : UStr) (st : EditorState) : Option EditorState :=
  (insertBracket o st tok).map (applyTr st)

/-- The oracle of a parser that sees one syntax node starting at position 0
(a freshly opened string node at the document start). -/
def nodeAtZero : SyntaxOracle := ⟨fun p => p == 0, fun _ _ => false, fun _ _ => false⟩

theorem mapM_eq_map_of_forall {α β : Type} (f : α → Option β) (g : α → β) :
    ∀ l : List α, (∀ x ∈ l, f x = some (g x)) → l.mapM f = some (l.map g)
  | [], _ => rfl
  | x :: xs, h => by
    rw [List.mapM_cons, h x (by simp),
      mapM_eq_map_of_forall f g xs (fun y hy => h y (by simp [hy]))]
    rfl

theorem mapM_eq_none_of_exists {α β : Type} (f : α → Option β) :
    ∀ l : List α, (∃ x ∈ l, f x = none) → l.mapM f = none := by
  intro l
  induction l with
  | nil => rintro ⟨x, hx, _⟩; exact absurd hx (List.not_mem_nil x)
  | cons y ys ih =>
    rintro ⟨x, hx, hfx⟩
    rw [List.mapM_cons]
    rcases List.mem_cons.mp hx with h | h
    · subst h; rw [hfx]; rfl
    · cases hfy : f y
      · rfl
      · rw [ih ⟨x, h, hfx⟩]; rfl

/-- Claim C5 (counterexample): the fallback of `closing` is not always the
next code point: for the apostrophe (39, not in the fixed table) it returns
the code point itself, not 40. -/
theorem closing_apostrophe_is_itself :
    closing 39 = [39] ∧ closing 39 ≠ fromCodePoint (39 + 1) := by decide

/-- Claim C5 (amended): `closing` returns the matching closer from the fixed
table for the openers 40, 91, 123, 60; for every other code point it returns
the code point itself when it is below 128, and the code point one greater
otherwise; it is a total function with no failure case. -/
theorem closing_table_and_fallback (ch : Nat) :
    closing 40 = [41] ∧ closing 91 = [93] ∧ closing 123 = [125] ∧ closing 60 = [62] ∧
    (ch ∉ [40, 91, 123, 60] →
      closing ch = fromCodePoint (if ch < 128 then ch else ch + 1)) := by
  refine ⟨rfl, rfl, rfl, rfl, fun h => ?_⟩
  have h40 : (ch == 40) = false := by
    simp only [beq_eq_false_iff_ne]; intro e; exact h (by simp [e])
  have h91 : (ch == 91) = false := by
    simp only [beq_eq_false_iff_ne]; intro e; exact h (by simp [e])
  have h123 : (ch == 123) = false := by
    simp only [beq_eq_false_iff_ne]; intro e; exact h (by simp [e])
  have h60 : (ch == 60) = false := by
    simp only [beq_eq_false_iff_ne]; intro e; exact h (by simp [e])
  simp [closing, h40, h91, h123, h60]

/-- Witness for `closing_table_and_fallback` at the concrete code point 200. -/
theorem closing_table_and_fallback_witness :
    (200 : Nat) ∉ [40, 91, 123, 60] ∧ closing 200 = fromCodePoint 201 :=
  ⟨by decide, by simpa using (closing_table_and_fallback 200).2.2.2.2 (by decide)⟩

/-- Claim C1: for an empty (caret) range, `handleOpen`'s per-range decision
auto-closes (inserts open plus close at the caret, puts the caret between
them, and records a mark at the closer's position) exactly when the
character after the caret is empty, whitespace, or occurs in the configured
before-string; for any other following character the range is rejected. -/
theorem handleOpen_caret_exact_condition (doc openT closeT closeBefore : UStr) (p : Nat) :
    handleOpenRange doc openT closeT closeBefore (cursor p) =
      (if (nextChar doc p).isEmpty || (nextChar doc p).any isSpace ||
          occursIn (nextChar doc p) closeBefore then
        some ⟨[⟨p, p, openT ++ closeT⟩], [.closeEff (p + openT.length)],
              cursor (p + openT.length)⟩
      else none) := by
  simp [handleOpenRange, cursor, SelRange.isEmpty, SelRange.rfrom, SelRange.rto]

/-- Claim C7 (counterexample): `insertBracket` performs no read-only check:
on a read-only state it still returns a special-behaviour transaction. -/
theorem insertBracket_ignores_readOnly :
    (⟨[], [cursor 0], 0, [], true, defaultBrackets, defaultBefore⟩ :
        EditorState).readOnly = true ∧
    insertBracket noOracle
      ⟨[], [cursor 0], 0, [], true, defaultBrackets, defaultBefore⟩ [40] ≠ none := by
  decide

/-- Claim C7 (amended): on a read-only document, the input handler returns
false and `deleteBracketPair` returns false without dispatching; the
read-only guard is not repeated inside `insertBracket`, whose callers
perform it. -/
theorem readOnly_disables_input_and_delete (o : SyntaxOracle) (comp : Bool)
    (st : EditorState) (rfrom rto : Nat) (ins : UStr) (h : st.readOnly = true) :
    inputHandler o comp st rfrom rto ins = false ∧ deleteBracketPair st = none := by
  constructor
  · simp [inputHandler, h]
  · simp [deleteBracketPair, h]

/-- Witness for `readOnly_disables_input_and_delete` on a concrete read-only
state. -/
theorem readOnly_disables_input_and_delete_witness :
    inputHandler noOracle false
        ⟨[], [cursor 0], 0, [], true, defaultBrackets, defaultBefore⟩ 0 0 [40] = false ∧
    deleteBracketPair
        ⟨[], [cursor 0], 0, [], true, defaultBrackets, defaultBefore⟩ = none :=
  readOnly_disables_input_and_delete noOracle false _ 0 0 [40] rfl

/-- Claim C2 (counterexample): with the main caret on a tracked closer and a
secondary caret before an untracked closer, typing the close token is
accepted (the transaction is produced), although the secondary caret is not
positioned before a tracked closer. -/
theorem handleClose_accepts_untracked_secondary :
    insertBracket noOracle
        ⟨[41, 41], [cursor 0, cursor 1], 0, [0], false, defaultBrackets, defaultBefore⟩
        [41] ≠ none ∧
    (⟨[41, 41], [cursor 0, cursor 1], 0, [0], false, defaultBrackets, defaultBefore⟩ :
        EditorState).marks.contains 1 = false := by
  decide

/-- Claim C2 (amended): `handleClose` moves every empty caret whose next
character equals the close token past it and attaches a skip effect (which
removes any mark there) at every range's from-position; it rejects the whole
batch exactly when some range is non-empty or its next character is not the
close token.  Only the main selection's from-position is required (by
`insertBracket`) to hold a tracked mark; secondary carets may sit before
untracked closers. -/
theorem handleClose_moves_and_rejects (st : EditorState) (openT closeT : UStr) :
    ((∀ r ∈ st.ranges, r.isEmpty = true ∧ nextChar st.doc r.head = closeT) →
      handleClose st openT closeT =
        some ⟨[],
              some (st.ranges.map (fun r => cursor (r.head + closeT.length)), st.mainIndex),
              st.ranges.map (fun r => .skipEff r.rfrom)⟩) ∧
    ((∃ r ∈ st.ranges, ¬(r.isEmpty = true ∧ nextChar st.doc r.head = closeT)) →
      handleClose st openT closeT = none) := by
  constructor
  · intro h
    unfold handleClose
    rw [mapM_eq_map_of_forall _ (fun r => cursor (r.head + closeT.length)) _ ?_]
    · rfl
    · intro r hr
      rcases h r hr with ⟨h1, h2⟩
      simp [h1, h2]
  · rintro ⟨r, hr, hnot⟩
    unfold handleClose
    rw [mapM_eq_none_of_exists _ _ ⟨r, hr, ?_⟩]
    · rfl
    · rcases Bool.eq_false_or_eq_true r.isEmpty with he | he
      · have : nextChar st.doc r.head ≠ closeT := fun hc => hnot ⟨he, hc⟩
        simp [he, this]
      · simp [he]

/-- Witness for `handleClose_moves_and_rejects`: two carets, each directly
before a close paren, are both moved past it and both positions get skip
effects. -/
theorem handleClose_moves_and_rejects_witness :
    handleClose
        ⟨[41, 41], [cursor 0, cursor 1], 0, [0], false, defaultBrackets, defaultBefore⟩
        [40] [41] =
      some ⟨[], some ([cursor 1, cursor 2], 0), [.skipEff 0, .skipEff 1]⟩ :=
  ((handleClose_moves_and_rejects
      ⟨[41, 41], [cursor 0, cursor 1], 0, [0], false, defaultBrackets, defaultBefore⟩
      [40] [41]).1 (by decide)).trans (by decide)

/-- Claim C6 (counterexample): the triple-quote completion branch inserts
four copies of the token (the typed one plus three more), not two: at the
state `""` with the caret at the end and a node start at 0, typing the quote
produces a change whose inserted text is four quotes. -/
theorem handleSame_triple_inserts_four :
    (insertBracket nodeAtZero
        ⟨[34, 34], [cursor 2], 0, [], false, [[34], [34, 34, 34]], defaultBefore⟩
        [34]).map Tr.changes = some [⟨2, 2, [34, 34, 34, 34]⟩] ∧
    ([34, 34, 34, 34] : UStr) ≠ [34] ++ [34] := by
  decide

/-- Claim C6 (amended): in `handleSame` at an empty caret, when
triple-quoting is enabled, the two characters before the caret equal
token+token, and the position two tokens back is a syntax-node start, the
engine inserts four copies of the token (completing the opening triple and
forming the closing triple) and records a mark right after the first
inserted token; typing the quote three times at a fresh node start yields
three open plus three close tokens with the caret after the third opener. -/
theorem handleSame_triple_completion :
    (∀ (o : SyntaxOracle) (doc : UStr) (marks : List Nat) (token : UStr) (p : Nat),
      nextChar doc p ≠ token →
      sliceDoc doc (p - 2 * token.length) p = token ++ token →
      o.nodeStartAt (p - 2 * token.length) = true →
      handleSameRange o doc marks token true (cursor p) =
        some ⟨[⟨p, p, token ++ token ++ token ++ token⟩],
              [.closeEff (p + token.length)], cursor (p + token.length)⟩) ∧
    ((((typeTok noOracle [34]
          ⟨[], [cursor 0], 0, [], false, [[34], [34, 34, 34]], defaultBefore⟩).bind
        (typeTok noOracle [34])).bind
        (typeTok nodeAtZero [34])).map (fun st => (st.doc, st.ranges)) =
      some ([34, 34, 34, 34, 34, 34], [cursor 3])) := by
  constructor
  · intro o doc marks token p hnext hslice hnode
    have hb : (nextChar doc p == token) = false := beq_eq_false_iff_ne.mpr hnext
    simp [handleSameRange, cursor, SelRange.isEmpty, hb, hslice, hnode]
  · decide

/-- Witness for `handleSame_triple_completion` at the concrete state `""`
with the caret at position 2. -/
theorem handleSame_triple_completion_witness :
    nextChar [34, 34] 2 ≠ [34] ∧
    handleSameRange nodeAtZero [34, 34] [] [34] true (cursor 2) =
      some ⟨[⟨2, 2, [34, 34, 34, 34]⟩], [.closeEff 3], cursor 3⟩ :=
  ⟨by decide,
   handleSame_triple_completion.1 nodeAtZero [34, 34] [] [34] 2
     (by decide) (by decide) (by decide)⟩

/-- Claim C3: when a transaction sets a selection, the tracker is cleared
exactly when the line start at the new main head differs from the previous
main head's line start mapped through the transaction's changes; otherwise
the marks are carried over, mapped through the edit. -/
theorem bracketState_clear_exact_condition (st : EditorState) (tr : Tr)
    (rs : List SelRange) (mi : Nat) (hsel : tr.sel = some (rs, mi))
    (heff : tr.effects = []) :
    bracketStateUpdate st tr =
      if some (lineStartAt (applyChanges st.doc tr.changes) (rs.getD mi ⟨0, 0⟩).head) ≠
          mapPos tr.changes (lineStartAt st.doc st.main.head) (-1) .Simple
      then []
      else st.marks.filterMap (mapMark tr.changes) := by
  simp only [bracketStateUpdate, hsel, heff, List.foldl_nil]
  split
  · simp
  · rfl

/-- Witness for `bracketState_clear_exact_condition`: a caret jump from line
one to line two clears the tracked mark at position 0. -/
theorem bracketState_clear_exact_condition_witness :
    bracketStateUpdate
        ⟨[97, 10, 98], [cursor 0], 0, [0], false, defaultBrackets, defaultBefore⟩
        ⟨[], some ([cursor 2], 0), []⟩ = [] :=
  (bracketState_clear_exact_condition _ _ [cursor 2] 0 rfl rfl).trans (by decide)

theorem contains_filter_ne_self (v : List Nat) (q : Nat) :
    (v.filter (fun f => f ≠ q)).contains q = false := by
  simp

theorem contains_filter_eq_false (v : List Nat) (x q : Nat) (h : v.contains q = false) :
    (v.filter (fun f => f ≠ x)).contains q = false := by
  simp at h ⊢
  intro hmem
  exact absurd hmem h

theorem contains_foldl_skips_eq_false (q : Nat) :
    ∀ (effects : List BracketEffect) (v : List Nat),
      (∀ e ∈ effects, ∃ x, e = BracketEffect.skipEff x) →
      (BracketEffect.skipEff q ∈ effects ∨ v.contains q = false) →
      (effects.foldl applyEffect v).contains q = false := by
  intro effects
  induction effects with
  | nil =>
    intro v _ h
    rcases h with h | h
    · exact absurd h (List.not_mem_nil _)
    · simpa using h
  | cons e es ih =>
    intro v hall h
    rcases hall e (by simp) with ⟨x, rfl⟩
    rw [List.foldl_cons]
    apply ih _ (fun e' he' => hall e' (by simp [he']))
    rcases h with h | h
    · rcases List.mem_cons.mp h with h1 | h1
      · right
        have hx : x = q := by injection h1.symm
        subst hx
        exact contains_filter_ne_self v x
      · left; exact h1
    · right; exact contains_filter_eq_false v x q h

theorem contains_update_eq_false (st : EditorState) (tr : Tr) (q : Nat)
    (hall : ∀ e ∈ tr.effects, ∃ x, e = BracketEffect.skipEff x)
    (hmem : BracketEffect.skipEff q ∈ tr.effects) :
    (applyTr st tr).marks.contains q = false := by
  show (bracketStateUpdate st tr).contains q = false
  unfold bracketStateUpdate
  exact contains_foldl_skips_eq_false q tr.effects _ hall (Or.inl hmem)

/-- Claim C9: every skip-over that consumes a tracked closer at a position
removes the mark there in the same transaction — in `handleSame`'s skip
branch (next character equals the token, not a node start, position marked)
the produced transaction has no changes and carries a skip effect at the
caret, and the resulting state no longer holds a mark there; and after any
successful `handleClose` no range's from-position holds a mark, so a closer
can be skipped over at most once. -/
theorem skip_removes_mark_same_transaction :
    (∀ (o : SyntaxOracle) (st : EditorState) (token : UStr) (allowTriple : Bool) (p : Nat),
      st.ranges = [cursor p] →
      nextChar st.doc p = token →
      o.nodeStartAt p = false →
      st.marks.contains p = true →
      ∃ tr, handleSame o st token allowTriple = some tr ∧
        tr.changes = [] ∧ BracketEffect.skipEff p ∈ tr.effects ∧
        (applyTr st tr).marks.contains p = false) ∧
    (∀ (st : EditorState) (openT closeT : UStr) (tr : Tr),
      handleClose st openT closeT = some tr →
      ∀ r ∈ st.ranges, (applyTr st tr).marks.contains r.rfrom = false) := by
  constructor
  · intro o st token allowTriple p hr hnext hnode hmark
    have hm' : p ∈ st.marks := by simpa using hmark
    have hrange : handleSameRange o st.doc st.marks token allowTriple (cursor p) =
        some ⟨[], [.skipEff p],
          cursor (p + token.length *
            (if allowTriple &&
                (sliceDoc st.doc p (p + token.length * 3) ==
                  token ++ token ++ token) then 3 else 1))⟩ := by
      simp [handleSameRange, cursor, SelRange.isEmpty, hnext, hnode, hm']
    have hsame : handleSame o st token allowTriple =
        some (mkTr st [⟨[], [.skipEff p],
          cursor (p + token.length *
            (if allowTriple &&
                (sliceDoc st.doc p (p + token.length * 3) ==
                  token ++ token ++ token) then 3 else 1))⟩]) := by
      unfold handleSame
      rw [hr, List.mapM_cons, hrange, List.mapM_nil]
      rfl
    refine ⟨_, hsame, rfl, ?_, ?_⟩
    · simp [mkTr, combine, combineAux, shiftEffect, shiftPos]
    · apply contains_update_eq_false
      · intro e he
        simp [mkTr, combine, combineAux, shiftEffect, shiftPos] at he
        exact ⟨p, he⟩
      · simp [mkTr, combine, combineAux, shiftEffect, shiftPos]
  · intro st openT closeT tr h r hr
    unfold handleClose at h
    cases hm : st.ranges.mapM (fun r =>
        if r.isEmpty && nextChar st.doc r.head == closeT then
          some (cursor (r.head + closeT.length))
        else none) with
    | none => rw [hm] at h; simp at h
    | some moved =>
      rw [hm] at h
      simp only [Option.map_some'] at h
      obtain rfl := (Option.some.injEq _ _).mp h
      apply contains_update_eq_false
      · intro e he
        rcases List.mem_map.mp he with ⟨r', _, rfl⟩
        exact ⟨r'.rfrom, rfl⟩
      · exact List.mem_map.mpr ⟨r, hr, rfl⟩

/-- Witness for `skip_removes_mark_same_transaction` on concrete one- and
two-caret states sitting on tracked closers. -/
theorem skip_removes_mark_same_transaction_witness :
    (∃ tr, handleSame noOracle
        ⟨[41], [cursor 0], 0, [0], false, defaultBrackets, defaultBefore⟩ [41] false =
          some tr ∧
        tr.changes = [] ∧ BracketEffect.skipEff 0 ∈ tr.effects ∧
        (applyTr ⟨[41], [cursor 0], 0, [0], false, defaultBrackets, defaultBefore⟩
          tr).marks.contains 0 = false) ∧
    (applyTr ⟨[41], [cursor 0], 0, [0], false, defaultBrackets, defaultBefore⟩
        ⟨[], some ([cursor 1], 0), [.skipEff 0]⟩).marks.contains
      (cursor 0).rfrom = false :=
  ⟨skip_removes_mark_same_transaction.1 noOracle _ [41] false 0 rfl (by decide) rfl
     (by decide),
   skip_removes_mark_same_transaction.2 _ [40] [41] _ (by decide) (cursor 0) (by decide)⟩

theorem changesSorted_lb : ∀ (cs : List Change) (lb : Nat) (c : Change),
    changesSorted lb cs = true → c ∈ cs → lb ≤ c.cfrom ∧ c.cfrom ≤ c.cto := by
  intro cs
  induction cs with
  | nil => intro lb c _ hc; exact absurd hc (List.not_mem_nil c)
  | cons d rest ih =>
    intro lb c hs hc
    simp only [changesSorted, Bool.and_eq_true, Nat.ble_eq] at hs
    obtain ⟨⟨h1, h2⟩, h3⟩ := hs
    rcases List.mem_cons.mp hc with rfl | hmem
    · exact ⟨h1, h2⟩
    · have hr := ih (d.cto + 1) c h3 hmem
      exact ⟨le_trans h1 (le_trans h2 (le_trans (Nat.le_succ _) hr.1)), hr.2⟩

theorem mapPosAux_deleted_none : ∀ (cs : List Change) (lb : Nat) (c : Change)
    (p posA posB : Nat), changesSorted lb cs = true → c ∈ cs →
    c.cfrom ≤ p → p < c.cto →
    mapPosAux (-1) .TrackAfter cs p posA posB = none := by
  intro cs
  induction cs with
  | nil => intro lb c p _ _ _ hc; exact absurd hc (List.not_mem_nil c)
  | cons d rest ih =>
    intro lb c p posA posB hs hc h1 h2
    simp only [changesSorted, Bool.and_eq_true, Nat.ble_eq] at hs
    obtain ⟨⟨hlb, hdf⟩, hrest⟩ := hs
    rcases List.mem_cons.mp hc with rfl | hmem
    · have hnlt : ¬ p < c.cfrom := not_lt.mpr h1
      simp [mapPosAux, hnlt, dropCond, h2, Nat.le_of_lt h2]
    · have hcb := changesSorted_lb rest (d.cto + 1) c hrest hmem
      have hgt : d.cto < p := lt_of_lt_of_le (Nat.lt_succ_of_le (le_refl d.cto))
        (le_trans hcb.1 h1)
      have hnlt : ¬ p < d.cfrom := not_lt.mpr (le_trans hdf (Nat.le_of_lt hgt))
      have hnle : ¬ p ≤ d.cto := not_le.mpr hgt
      have hne : ¬ p = d.cto := Nat.ne_of_gt hgt
      simp only [mapPosAux, hnlt, if_false, dropCond]
      rw [if_neg (by simp [hnle]), if_neg (by simp [not_lt.mpr (Nat.le_of_lt hgt), hne])]
      exact ih (d.cto + 1) c p d.cto _ hrest hmem h1 h2

theorem insertedBefore_cons (d : Change) (rest : List Change) (p : Nat) :
    insertedBefore (d :: rest) p =
      (if d.cfrom < p then d.ins.length else 0) + insertedBefore rest p := by
  unfold insertedBefore
  rw [List.filter_cons]
  by_cases h : d.cfrom < p
  · simp [h]
  · simp [h]

theorem insertedBefore_eq_zero : ∀ (cs : List Change) (p : Nat),
    (∀ c ∈ cs, ¬ c.cfrom < p) → insertedBefore cs p = 0 := by
  intro cs
  induction cs with
  | nil => intro p _; rfl
  | cons d rest ih =>
    intro p h
    rw [insertedBefore_cons, if_neg (h d (by simp)), ih p (fun c hc => h c (by simp [hc]))]

theorem mapPosAux_insertions : ∀ (cs : List Change) (lb posA posB p : Nat),
    changesSorted lb cs = true → (∀ c ∈ cs, c.cfrom = c.cto) → posA ≤ lb →
    mapPosAux (-1) .TrackAfter cs p posA posB =
      some (posB + (p - posA) + insertedBefore cs p) := by
  intro cs
  induction cs with
  | nil => intro lb posA posB p _ _ _; simp [mapPosAux, insertedBefore]
  | cons d rest ih =>
    intro lb posA posB p hs hins hpa
    simp only [changesSorted, Bool.and_eq_true, Nat.ble_eq] at hs
    obtain ⟨⟨hlb, hdf⟩, hrest⟩ := hs
    have hd : d.cfrom = d.cto := hins d (by simp)
    have hzrest : ∀ h : p ≤ d.cfrom, insertedBefore rest p = 0 := by
      intro h
      refine insertedBefore_eq_zero rest p (fun c hc => not_lt.mpr ?_)
      have := (changesSorted_lb rest (d.cto + 1) c hrest hc).1
      omega
    by_cases h1 : p < d.cfrom
    · have hz : insertedBefore (d :: rest) p = 0 := by
        rw [insertedBefore_cons, if_neg (by omega), hzrest (Nat.le_of_lt h1)]
      simp [mapPosAux, h1, hz]
    · by_cases h2 : p = d.cfrom
      · have hz : insertedBefore (d :: rest) p = 0 := by
          rw [insertedBefore_cons, if_neg (by omega), hzrest (by omega)]
        rw [hz]
        unfold mapPosAux
        rw [if_neg h1]
        rw [if_neg (by simp [dropCond]; omega), if_pos (by simp; omega)]
        rw [if_pos (by simp)]
        congr 1
        omega
      · have hgt : d.cfrom < p := by omega
        unfold mapPosAux
        rw [if_neg h1]
        rw [if_neg (by simp [dropCond]; omega), if_neg (by simp; omega)]
        rw [ih (d.cto + 1) d.cto _ p hrest (fun c hc => hins c (by simp [hc])) (Nat.le_succ _)]
        rw [insertedBefore_cons, if_pos hgt]
        congr 1
        omega

/-- Claim C8: mapping a tracked closer's position through an edit with
`closeBracketEffect`'s map function (track-after mode, association -1)
drops the mark when its position lies in a deleted section; over pure
insertions it advances the position by exactly the length inserted strictly
before it — so the mark moves with content inserted strictly before it and
stays put under an insertion exactly at its position — and a single
replacement entirely before the position advances it by the replacement's
length delta. -/
theorem closeBracketEffect_track_after :
    (∀ (cs : List Change) (c : Change) (p : Nat),
      changesSorted 0 cs = true → c ∈ cs → c.cfrom ≤ p → p < c.cto →
      closeBracketEffectMap cs p = none) ∧
    (∀ (cs : List Change) (p : Nat),
      changesSorted 0 cs = true → (∀ c ∈ cs, c.cfrom = c.cto) →
      closeBracketEffectMap cs p = some (p + insertedBefore cs p)) ∧
    (∀ (p : Nat) (ins : UStr), closeBracketEffectMap [⟨p, p, ins⟩] p = some p) ∧
    (∀ (f t : Nat) (ins : UStr) (p : Nat), f ≤ t → t ≤ p → f < t ∨ t < p →
      closeBracketEffectMap [⟨f, t, ins⟩] p = some (p - (t - f) + ins.length)) := by
  refine ⟨?_, ?_, ?_, ?_⟩
  · intro cs c p hs hc h1 h2
    exact mapPosAux_deleted_none cs 0 c p 0 0 hs hc h1 h2
  · intro cs p hs hins
    have := mapPosAux_insertions cs 0 0 0 p hs hins (le_refl 0)
    simpa using this
  · intro p ins
    unfold closeBracketEffectMap mapPos mapPosAux
    dsimp only
    rw [if_neg (by omega)]
    rw [if_neg (by simp [dropCond]), if_pos (by simp)]
    simp
  · intro f t ins p h1 h2 h3
    unfold closeBracketEffectMap mapPos mapPosAux
    dsimp only
    rw [if_neg (by omega)]
    rw [if_neg (by simp [dropCond]; omega), if_neg (by simp; omega)]
    unfold mapPosAux
    congr 1
    omega

/-- Witness for `closeBracketEffect_track_after` on concrete edits: a mark
inside a deleted range is dropped; insertions of two units at 2 and one unit
at 4 move position 5 to 8; an insertion exactly at 5 leaves 5 in place; a
replacement of two units by one before position 6 maps 6 to 5. -/
theorem closeBracketEffect_track_after_witness :
    (changesSorted 0 [⟨1, 3, []⟩] = true ∧
      closeBracketEffectMap [⟨1, 3, []⟩] 2 = none) ∧
    closeBracketEffectMap [⟨2, 2, [9, 9]⟩, ⟨4, 4, [9]⟩] 5 = some 8 ∧
    closeBracketEffectMap [⟨5, 5, [1, 2, 3]⟩] 5 = some 5 ∧
    closeBracketEffectMap [⟨1, 3, [7]⟩] 6 = some 5 :=
  ⟨⟨by decide,
    closeBracketEffect_track_after.1 [⟨1, 3, []⟩] ⟨1, 3, []⟩ 2 (by decide) (by decide)
      (by decide) (by decide)⟩,
   by
     have := closeBracketEffect_track_after.2.1 [⟨2, 2, [9, 9]⟩, ⟨4, 4, [9]⟩] 5
       (by decide) (by decide)
     simpa using this,
   closeBracketEffect_track_after.2.2.1 5 [1, 2, 3],
   by
     have := closeBracketEffect_track_after.2.2.2 1 3 [7] 6 (by decide) (by decide)
       (Or.inr (by decide))
     simpa using this⟩

theorem sliceDoc_subset (doc : UStr) (a b : Nat) : ∀ x ∈ sliceDoc doc a b, x ∈ doc :=
  fun _ hx => List.drop_subset a doc (List.take_subset _ _ hx)

theorem sliceDoc_length_le (doc : UStr) (a b : Nat) : (sliceDoc doc a b).length ≤ b - a := by
  simp [sliceDoc]

theorem cpCount_prevChar_le_one (doc : UStr) (pos : Nat)
    (hwf : ∀ u ∈ doc, u < 65536) : cpCount (prevChar doc pos) ≤ 1 := by
  unfold prevChar
  have hsub := sliceDoc_subset doc (pos - 2) pos
  have hlen : (sliceDoc doc (pos - 2) pos).length ≤ 2 :=
    le_trans (sliceDoc_length_le doc (pos - 2) pos) (by omega)
  rcases hp : sliceDoc doc (pos - 2) pos with _ | ⟨a, _ | ⟨b, _ | ⟨c, t⟩⟩⟩
  · decide
  · have ha : a < 65536 := hwf a (hsub a (by rw [hp]; exact List.mem_singleton_self a))
    simp [codePointAt, charCodeAt, codePointSize, ha, cpCount]
  · have ha : a < 65536 := hwf a (hsub a (by rw [hp]; simp))
    have hb : b < 65536 := hwf b (hsub b (by rw [hp]; simp))
    by_cases hA : surrHigh a
    · by_cases hB : surrLow b
      · have hge : ¬ ((a - 55296) * 1024 + (b - 56320) + 65536 < 65536) := by omega
        simp [codePointAt, charCodeAt, codePointSize, hA, hB, hge, cpCount]
      · simp [codePointAt, charCodeAt, codePointSize, hA, hB, ha, cpCount]
    · simp [codePointAt, charCodeAt, codePointSize, hA, ha, cpCount]
  · rw [hp] at hlen
    simp at hlen

/-- Claim C10: `deleteBracketPair` never deletes a triple-quote pair: the
character before the caret is at most one code point, so it can never equal
a configured token of two or more code points, and the token search inside
the command can only return single-code-point tokens. -/
theorem deleteBracketPair_single_code_point_only :
    (∀ (doc : UStr) (pos : Nat) (tok : UStr),
      (∀ u ∈ doc, u < 65536) → 2 ≤ cpCount tok → prevChar doc pos ≠ tok) ∧
    (∀ (doc : UStr) (tokens : List UStr) (head : Nat) (tok : UStr),
      (∀ u ∈ doc, u < 65536) → 2 ≤ cpCount tok →
      deleteMatch doc tokens head ≠ some tok) := by
  have key : ∀ (doc : UStr) (pos : Nat) (tok : UStr),
      (∀ u ∈ doc, u < 65536) → 2 ≤ cpCount tok → prevChar doc pos ≠ tok := by
    intro doc pos tok hwf h2 he
    have hle := cpCount_prevChar_le_one doc pos hwf
    rw [he] at hle
    omega
  refine ⟨key, ?_⟩
  intro doc tokens head tok hwf h2 hfind
  have hp := List.find?_some hfind
  simp only [Bool.and_eq_true, beq_iff_eq] at hp
  exact key doc head tok hwf h2 hp.1.symm

/-- Witness for `deleteBracketPair_single_code_point_only` with the
three-code-point triple-quote token on a concrete document. -/
theorem deleteBracketPair_single_code_point_only_witness :
    2 ≤ cpCount [39, 39, 39] ∧
    prevChar [39, 39, 39] 2 ≠ [39, 39, 39] ∧
    deleteMatch [39, 39, 39] [[39, 39, 39]] 2 ≠ some [39, 39, 39] :=
  ⟨by decide,
   deleteBracketPair_single_code_point_only.1 [39, 39, 39] 2 [39, 39, 39]
     (by decide) (by decide),
   deleteBracketPair_single_code_point_only.2 [39, 39, 39] [[39, 39, 39]] 2 [39, 39, 39]
     (by decide) (by decide)⟩

theorem shiftPos_zero (q : Nat) : shiftPos 0 q = q := by simp [shiftPos]

theorem shiftEffect_zero (e : BracketEffect) : shiftEffect 0 e = e := by
  cases e <;> simp [shiftEffect, shiftPos_zero]

theorem mkTr_single (st : EditorState) (r : RangeResult) :
    mkTr st [r] = ⟨r.changes, some ([r.range], st.mainIndex), r.effects⟩ := by
  have hid : shiftEffect 0 = id := funext shiftEffect_zero
  simp [mkTr, combine, combineAux, hid, shiftPos_zero]

theorem codePointAt_cons_not_high (u : Nat) (rest : UStr) (h : surrHigh u = false) :
    codePointAt (u :: rest) 0 = u := by
  simp [codePointAt, charCodeAt, h]

theorem codePointAt_pair_not_low (x y : Nat) (h : surrLow y = false) :
    codePointAt [x, y] 0 = x := by
  by_cases hx : surrHigh x <;> simp [codePointAt, charCodeAt, hx, h]

theorem nextChar_mid (a b : UStr) (oc cc : Nat) (hcc : surrHigh cc = false)
    (hsz : cc < 65536) :
    nextChar (a ++ oc :: cc :: b) (a.length + 1) = [cc] := by
  have hassoc : a ++ oc :: cc :: b = (a ++ [oc]) ++ cc :: b := by simp
  have hdrop : (a ++ oc :: cc :: b).drop (a.length + 1) = cc :: b := by
    rw [hassoc, List.drop_left' (by simp)]
  have h2 : a.length + 1 + 2 - (a.length + 1) = 2 := by omega
  unfold nextChar sliceDoc
  rw [h2, hdrop, List.take_succ_cons]
  dsimp only
  rw [codePointAt_cons_not_high cc _ hcc]
  simp [codePointSize, hsz]

theorem prevChar_mid (a b : UStr) (oc cc : Nat) (hwa : ∀ u ∈ a, u < 65536)
    (hoc : oc < 65536) (hlow : surrLow oc = false) :
    prevChar (a ++ oc :: cc :: b) (a.length + 1) = [oc] := by
  rcases List.eq_nil_or_concat a with rfl | ⟨a2, x, rfl⟩
  · simp only [List.nil_append, List.length_nil, Nat.zero_add]
    unfold prevChar sliceDoc
    norm_num
    simp [codePointAt, charCodeAt, codePointSize, hoc]
  · have hx : x < 65536 := hwa x (by simp)
    have hassoc : (a2.concat x) ++ oc :: cc :: b = a2 ++ x :: oc :: cc :: b := by simp
    have hlena : (a2.concat x).length = a2.length + 1 := by simp
    unfold prevChar sliceDoc
    rw [hassoc, hlena]
    have e1 : a2.length + 1 + 1 - 2 = a2.length := by omega
    have e2 : a2.length + 1 + 1 - (a2.length + 1 + 1 - 2) = 2 := by omega
    rw [e2, e1, List.drop_left, List.take_succ_cons, List.take_succ_cons, List.take_zero]
    dsimp only
    rw [codePointAt_pair_not_low x oc hlow]
    simp [codePointSize, hx]

theorem applyChanges_single (doc : UStr) (c : Change) :
    applyChanges doc [c] = doc.take c.cfrom ++ c.ins ++ doc.drop c.cto := rfl

theorem handleOpen_single (st : EditorState) (p : Nat) (oT cT cb : UStr) (r : RangeResult)
    (hr : st.ranges = [cursor p])
    (h : handleOpenRange st.doc oT cT cb (cursor p) = some r) :
    handleOpen st oT cT cb = some (mkTr st [r]) := by
  unfold handleOpen
  rw [hr, List.mapM_cons, h, List.mapM_nil]
  rfl

theorem deleteBracketPair_single (st : EditorState) (p : Nat) (r : RangeResult)
    (hro : st.readOnly = false)
    (hr : st.ranges = [cursor p])
    (h : deleteBracketPairRange st.doc st.brackets (cursor p) = some r) :
    deleteBracketPair st = some (mkTr st [r]) := by
  unfold deleteBracketPair
  rw [hro, if_neg (by decide), hr, List.mapM_cons, h, List.mapM_nil]
  rfl

theorem round_trip_aux (o : SyntaxOracle) (a b : UStr) (p : Nat) (ms : List Nat)
    (oc cc : Nat)
    (ha : a.length = p)
    (hwa : ∀ u ∈ a, u < 65536)
    (hcond : ((nextChar (a ++ b) p).isEmpty || (nextChar (a ++ b) p).any isSpace ||
              occursIn (nextChar (a ++ b) p) defaultBefore) = true)
    (hdisp : insertBracket o ⟨a ++ b, [cursor p], 0, ms, false, defaultBrackets,
        defaultBefore⟩ [oc] =
      handleOpen ⟨a ++ b, [cursor p], 0, ms, false, defaultBrackets, defaultBefore⟩
        [oc] [cc] defaultBefore)
    (hoc : oc < 65536) (hlow : surrLow oc = false)
    (hcc : cc < 65536) (hhigh : surrHigh cc = false)
    (hfind : List.find? (fun token =>
        token == [oc] && ([cc] == closing (codePointAt token 0))) defaultBrackets =
      some [oc]) :
    ∃ tr tr2,
      insertBracket o ⟨a ++ b, [cursor p], 0, ms, false, defaultBrackets, defaultBefore⟩
        [oc] = some tr ∧
      (applyTr ⟨a ++ b, [cursor p], 0, ms, false, defaultBrackets, defaultBefore⟩ tr).doc
        = a ++ oc :: cc :: b ∧
      (applyTr ⟨a ++ b, [cursor p], 0, ms, false, defaultBrackets, defaultBefore⟩
        tr).ranges = [cursor (p + 1)] ∧
      deleteBracketPair
        (applyTr ⟨a ++ b, [cursor p], 0, ms, false, defaultBrackets, defaultBefore⟩ tr)
        = some tr2 ∧
      (applyTr (applyTr ⟨a ++ b, [cursor p], 0, ms, false, defaultBrackets, defaultBefore⟩
        tr) tr2).doc = a ++ b ∧
      (applyTr (applyTr ⟨a ++ b, [cursor p], 0, ms, false, defaultBrackets, defaultBefore⟩
        tr) tr2).ranges = [cursor p] := by
  have hopen : handleOpenRange (a ++ b) [oc] [cc] defaultBefore (cursor p) =
      some ⟨[⟨p, p, [oc, cc]⟩], [.closeEff (p + 1)], cursor (p + 1)⟩ := by
    simp [handleOpenRange, cursor, SelRange.isEmpty, hcond]
  have htr : insertBracket o
      ⟨a ++ b, [cursor p], 0, ms, false, defaultBrackets, defaultBefore⟩ [oc] =
      some ⟨[⟨p, p, [oc, cc]⟩], some ([cursor (p + 1)], 0), [.closeEff (p + 1)]⟩ := by
    rw [hdisp,
      handleOpen_single
        ⟨a ++ b, [cursor p], 0, ms, false, defaultBrackets, defaultBefore⟩ p
        [oc] [cc] defaultBefore
        ⟨[⟨p, p, [oc, cc]⟩], [.closeEff (p + 1)], cursor (p + 1)⟩ rfl hopen,
      mkTr_single]
  have hdoc1 : (applyTr ⟨a ++ b, [cursor p], 0, ms, false, defaultBrackets, defaultBefore⟩
      ⟨[⟨p, p, [oc, cc]⟩], some ([cursor (p + 1)], 0), [.closeEff (p + 1)]⟩).doc =
      a ++ oc :: cc :: b := by
    show applyChanges (a ++ b) [⟨p, p, [oc, cc]⟩] = a ++ oc :: cc :: b
    rw [applyChanges_single]
    dsimp only
    rw [List.take_left' ha, List.drop_left' ha]
    simp
  have hnext2 : nextChar (a ++ oc :: cc :: b) (p + 1) = [cc] := by
    have h1 := nextChar_mid a b oc cc hhigh hcc
    rwa [ha] at h1
  have hprev2 : prevChar (a ++ oc :: cc :: b) (p + 1) = [oc] := by
    have h1 := prevChar_mid a b oc cc hwa hoc hlow
    rwa [ha] at h1
  have hdm : deleteMatch (a ++ oc :: cc :: b) defaultBrackets (p + 1) = some [oc] := by
    unfold deleteMatch
    simp only [hprev2, hnext2]
    exact hfind
  have hdr : deleteBracketPairRange (a ++ oc :: cc :: b) defaultBrackets
      (cursor (p + 1)) = some ⟨[⟨p, p + 2, []⟩], [], cursor p⟩ := by
    simp [deleteBracketPairRange, cursor, SelRange.isEmpty, hdm]
  have hdr2 : deleteBracketPairRange
      (applyTr ⟨a ++ b, [cursor p], 0, ms, false, defaultBrackets, defaultBefore⟩
        ⟨[⟨p, p, [oc, cc]⟩], some ([cursor (p + 1)], 0), [.closeEff (p + 1)]⟩).doc
      (applyTr ⟨a ++ b, [cursor p], 0, ms, false, defaultBrackets, defaultBefore⟩
        ⟨[⟨p, p, [oc, cc]⟩], some ([cursor (p + 1)], 0), [.closeEff (p + 1)]⟩).brackets
      (cursor (p + 1)) = some ⟨[⟨p, p + 2, []⟩], [], cursor p⟩ := by
    rw [hdoc1]
    exact hdr
  have hdel : deleteBracketPair
      (applyTr ⟨a ++ b, [cursor p], 0, ms, false, defaultBrackets, defaultBefore⟩
        ⟨[⟨p, p, [oc, cc]⟩], some ([cursor (p + 1)], 0), [.closeEff (p + 1)]⟩) =
      some ⟨[⟨p, p + 2, []⟩], some ([cursor p], 0), []⟩ := by
    rw [deleteBracketPair_single
        (applyTr ⟨a ++ b, [cursor p], 0, ms, false, defaultBrackets, defaultBefore⟩
          ⟨[⟨p, p, [oc, cc]⟩], some ([cursor (p + 1)], 0), [.closeEff (p + 1)]⟩)
        (p + 1) ⟨[⟨p, p + 2, []⟩], [], cursor p⟩ rfl rfl hdr2, mkTr_single]
    rfl
  refine ⟨_, _, htr, hdoc1, rfl, hdel, ?_, rfl⟩
  show applyChanges
    (applyTr ⟨a ++ b, [cursor p], 0, ms, false, defaultBrackets, defaultBefore⟩
      ⟨[⟨p, p, [oc, cc]⟩], some ([cursor (p + 1)], 0), [.closeEff (p + 1)]⟩).doc
    [⟨p, p + 2, []⟩] = a ++ b
  rw [hdoc1, applyChanges_single]
  dsimp only
  rw [List.take_left' ha]
  rw [show a ++ oc :: cc :: b = (a ++ [oc, cc]) ++ b by simp]
  rw [List.drop_left' (by simp [ha])]
  simp

/-- Claim C4: round-trip — for every well-formed document and caret position
where auto-closing applies (next character empty, whitespace, or in the
default before-set), inserting one of the default asymmetric open brackets
via `insertBracket` yields the document with open plus close inserted at the
caret and the caret between them, and immediately running
`deleteBracketPair` on that state restores the original document content and
the original caret position. -/
theorem insert_then_delete_round_trip (o : SyntaxOracle) (d : UStr) (p : Nat)
    (ms : List Nat) (oc cc : Nat)
    (hwf : ∀ u ∈ d, u < 65536)
    (hp : p ≤ d.length)
    (htok : (oc, cc) ∈ [(40, 41), (91, 93), (123, 125)])
    (hcond : ((nextChar d p).isEmpty || (nextChar d p).any isSpace ||
              occursIn (nextChar d p) defaultBefore) = true) :
    ∃ tr tr2,
      insertBracket o ⟨d, [cursor p], 0, ms, false, defaultBrackets, defaultBefore⟩ [oc]
        = some tr ∧
      (applyTr ⟨d, [cursor p], 0, ms, false, defaultBrackets, defaultBefore⟩ tr).doc
        = d.take p ++ oc :: cc :: d.drop p ∧
      (applyTr ⟨d, [cursor p], 0, ms, false, defaultBrackets, defaultBefore⟩ tr).ranges
        = [cursor (p + 1)] ∧
      deleteBracketPair
        (applyTr ⟨d, [cursor p], 0, ms, false, defaultBrackets, defaultBefore⟩ tr)
        = some tr2 ∧
      (applyTr (applyTr ⟨d, [cursor p], 0, ms, false, defaultBrackets, defaultBefore⟩ tr)
        tr2).doc = d ∧
      (applyTr (applyTr ⟨d, [cursor p], 0, ms, false, defaultBrackets, defaultBefore⟩ tr)
        tr2).ranges = [cursor p] := by
  obtain ⟨a, b, hd, ha⟩ : ∃ a b, d = a ++ b ∧ a.length = p :=
    ⟨d.take p, d.drop p, (List.take_append_drop p d).symm,
     by rw [List.length_take]; omega⟩
  subst hd
  rw [List.take_left' ha, List.drop_left' ha]
  have hwa : ∀ u ∈ a, u < 65536 := fun u hu => hwf u (List.mem_append_left b hu)
  simp only [List.mem_cons, List.mem_singleton, Prod.mk.injEq, List.not_mem_nil,
    or_false] at htok
  rcases htok with ⟨rfl, rfl⟩ | ⟨rfl, rfl⟩ | ⟨rfl, rfl⟩ <;>
    exact round_trip_aux o a b p ms _ _ ha hwa hcond rfl (by decide) (by decide)
      (by decide) (by decide) (by decide)

/-- Witness for `insert_then_delete_round_trip`: typing an open paren in the
document "a)" at position 1 and deleting the pair again. -/
theorem insert_then_delete_round_trip_witness :
    ∃ tr tr2,
      insertBracket noOracle
        ⟨[97, 41], [cursor 1], 0, [], false, defaultBrackets, defaultBefore⟩ [40]
        = some tr ∧
      (applyTr ⟨[97, 41], [cursor 1], 0, [], false, defaultBrackets, defaultBefore⟩
        tr).doc = [97, 41].take 1 ++ 40 :: 41 :: [97, 41].drop 1 ∧
      (applyTr ⟨[97, 41], [cursor 1], 0, [], false, defaultBrackets, defaultBefore⟩
        tr).ranges = [cursor 2] ∧
      deleteBracketPair
        (applyTr ⟨[97, 41], [cursor 1], 0, [], false, defaultBrackets, defaultBefore⟩ tr)
        = some tr2 ∧
      (applyTr (applyTr ⟨[97, 41], [cursor 1], 0, [], false, defaultBrackets,
        defaultBefore⟩ tr) tr2).doc = [97, 41] ∧
      (applyTr (applyTr ⟨[97, 41], [cursor 1], 0, [], false, defaultBrackets,
        defaultBefore⟩ tr) tr2).ranges = [cursor 1] :=
  insert_then_delete_round_trip noOracle [97, 41] 1 [] 40 41 (by decide) (by decide)
    (by decide) (by decide)

end CloseBrackets
